import Mathlib

/-!
Verification development for the midway repository.

Part 1 embeds the AWS CLI plugin (packages/faas-cli-plugin-aws/src/index.ts):
credential validation, region/stage resolution and credential caching.

Part 2 models the IoC core (definition registry, dependency resolver,
instance factory, container) described by the specification; the core's
implementation files are not part of the analysed sources, only its tests,
so the model follows the specification's component design.
-/

namespace AwsPlugin

/-- JavaScript truthiness for a string-or-undefined value: `undefined` and
the empty string are falsy, every other string is truthy. -/
def truthy : Option String → Bool
  | none => false
  | some s => s ≠ ""

/-- Credentials object as handled by the plugin: the fields the code reads
(`accessKeyId`, `secretAccessKey`, `sessionToken`, `roleArn`), each possibly
undefined. -/
structure Credentials where
  accessKeyId : Option String
  secretAccessKey : Option String
  sessionToken : Option String
  roleArn : Option String
deriving DecidableEq, Repr

/-- Embedding of `impl.validCredentials` (index.ts lines 21-38): false for a
null/undefined argument; otherwise true exactly when both key fields are
truthy and distinct from the literal string "undefined", or `roleArn` is
truthy. -/
def validCredentials (credentials : Option Credentials) : Bool :=
  match credentials with
  | none => false
  | some c =>
    (truthy c.accessKeyId && decide (c.accessKeyId ≠ some "undefined") &&
       truthy c.secretAccessKey && decide (c.secretAccessKey ≠ some "undefined"))
    || truthy c.roleArn

/-- Result object built by `getCredentials`: the `credentials` slot written by
`impl.addCredentials` and the `signatureVersion` slot set at the end. -/
structure CredResult where
  credentials : Option Credentials
  signatureVersion : Option String
deriving DecidableEq, Repr

/-- Embedding of `impl.addCredentials`: store the credentials in the result
only when they are valid. -/
def addCredentials (results : CredResult) (credentials : Option Credentials) : CredResult :=
  if validCredentials credentials then { results with credentials := credentials } else results

/-- External world read by `getCredentials`: what `SharedIniFileCredentials`
returns for a profile name, what `EnvironmentCredentials` returns for an
environment prefix, and the process environment variables. These are
aws-sdk / process externals, modelled as unconstrained functions. -/
structure AwsEnv where
  profileCreds : String → Credentials
  envCreds : String → Credentials
  envVars : String → Option String

/-- Embedding of `impl.addEnvironmentCredentials`: for a truthy environment
prefix, validate and add the environment credentials. -/
def addEnvironmentCredentials (env : AwsEnv) (results : CredResult) (pfx : String) : CredResult :=
  if pfx ≠ "" then addCredentials results (some (env.envCreds pfx)) else results

/-- Embedding of `impl.addProfileCredentials`: for a truthy profile name,
load the shared-ini credentials; if none of `accessKeyId`, `sessionToken`,
`roleArn` is truthy the profile does not exist and an error is thrown;
otherwise validate and add. -/
def addProfileCredentials (env : AwsEnv) (results : CredResult) (profile : Option String) :
    Except String CredResult :=
  if truthy profile then
    let pc := env.profileCreds (profile.getD "")
    if !(truthy pc.accessKeyId || truthy pc.sessionToken || truthy pc.roleArn) then
      .error ("Profile " ++ profile.getD "" ++ " does not exist")
    else
      .ok (addCredentials results (some pc))
  else
    .ok results

/-- Embedding of `impl.addEnvironmentProfile`: for a truthy prefix, read the
profile name from the environment variable `<pfx>_PROFILE` and add its
credentials. -/
def addEnvironmentProfile (env : AwsEnv) (results : CredResult) (pfx : String) :
    Except String CredResult :=
  if pfx ≠ "" then addProfileCredentials env results (env.envVars (pfx ++ "_PROFILE"))
  else .ok results

/-- One entry of the list built by `getValues`: the looked-up path and the
value found there (possibly undefined). -/
structure SourceValue where
  path : List String
  value : Option String
deriving DecidableEq, Repr

/-- Embedding of `AWSLambdaPlugin.firstValue`: reduce keeping the first entry
whose value is truthy, starting from the empty object (whose `value` reads as
undefined). -/
def firstValue (values : List SourceValue) : SourceValue :=
  values.foldl (fun result current => if truthy result.value then result else current) ⟨[], none⟩

/-- The plugin fields read by `getStage` / `getRegion` / `getCredentials`:
the option and configuration paths probed by `getValues`, the `aws-profile`
CLI option, and the credential cache. -/
structure PluginState where
  options_stage : Option String
  serverless_config_stage : Option String
  serverless_provider_stage : Option String
  options_region : Option String
  serverless_config_region : Option String
  serverless_provider_region : Option String
  options_awsProfile : Option String
  cachedCredentials : Option CredResult
deriving DecidableEq, Repr

/-- Embedding of `AWSLambdaPlugin.getStageSourceValue`: probe
`options.stage`, `serverless.config.stage`,
`serverless.service.provider.stage` in that order. -/
def getStageSourceValue (st : PluginState) : SourceValue :=
  firstValue
    [⟨["options", "stage"], st.options_stage⟩,
     ⟨["serverless", "config", "stage"], st.serverless_config_stage⟩,
     ⟨["serverless", "service", "provider", "stage"], st.serverless_provider_stage⟩]

/-- Embedding of the JavaScript `a || d` fallback for a string-or-undefined
left operand and a string default. -/
def orDefault (v : Option String) (d : String) : String :=
  match v with
  | none => d
  | some s => if s ≠ "" then s else d

/-- Embedding of `AWSLambdaPlugin.getStage`: the stage source value if
truthy, else the default "dev". -/
def getStage (st : PluginState) : String :=
  orDefault (getStageSourceValue st).value "dev"

/-- Embedding of `AWSLambdaPlugin.getRegionSourceValue`: probe
`options.region`, `serverless.config.region`,
`serverless.service.provider.region` in that order. -/
def getRegionSourceValue (st : PluginState) : SourceValue :=
  firstValue
    [⟨["options", "region"], st.options_region⟩,
     ⟨["serverless", "config", "region"], st.serverless_config_region⟩,
     ⟨["serverless", "service", "provider", "region"], st.serverless_provider_region⟩]

/-- Embedding of `AWSLambdaPlugin.getRegion`: the region source value if
truthy, else the default "us-east-1". -/
def getRegion (st : PluginState) : String :=
  orDefault (getRegionSourceValue st).value "us-east-1"

/-- Cache-miss body of `AWSLambdaPlugin.getCredentials` (index.ts lines
427-458): build the result by trying the default profile (swallowing only
the "Profile default does not exist" error), the AWS environment credentials
and profile, the stage-specific environment credentials and profile, and the
`aws-profile` CLI option, then set `signatureVersion` to "v4". -/
def computeCredentials (env : AwsEnv) (st : PluginState) : Except String CredResult :=
  let stage := getStage st
  let stageUpper : Option String := if stage ≠ "" then some stage.toUpper else none
  let stagePfx := "AWS_" ++ (match stageUpper with | some s => s | none => "null")
  let r0 : CredResult := ⟨none, none⟩
  let step1 : Except String CredResult :=
    match addProfileCredentials env r0 (some "default") with
    | .ok r => .ok r
    | .error msg =>
      if msg = "Profile default does not exist" then .ok r0 else .error msg
  match step1 with
  | .error msg => .error msg
  | .ok r1 =>
    let r2 := addEnvironmentCredentials env r1 "AWS"
    match addEnvironmentProfile env r2 "AWS" with
    | .error msg => .error msg
    | .ok r3 =>
      let r4 := addEnvironmentCredentials env r3 stagePfx
      match addEnvironmentProfile env r4 stagePfx with
      | .error msg => .error msg
      | .ok r5 =>
        let step6 : Except String CredResult :=
          if truthy st.options_awsProfile then
            addProfileCredentials env r5 st.options_awsProfile
          else .ok r5
        match step6 with
        | .error msg => .error msg
        | .ok r6 => .ok { r6 with signatureVersion := some "v4" }

/-- Embedding of `AWSLambdaPlugin.getCredentials` (index.ts lines 422-463):
return the cached result when present; otherwise compute the result, store
it in the cache and return it together with the updated plugin state. -/
def getCredentials (env : AwsEnv) (st : PluginState) :
    Except String (CredResult × PluginState) :=
  match st.cachedCredentials with
  | some c => .ok (c, st)
  | none =>
    match computeCredentials env st with
    | .error msg => .error msg
    | .ok result => .ok (result, { st with cachedCredentials := some result })

end AwsPlugin

namespace Ioc

/-- Modelled from the spec: the source classification of an InjectionPoint
(spec section 3) — a definition reference by identifier, a configuration
value by path, a plugin reference, or a literal. The IoC core implementation
is not among the analysed source files (only its tests are), so the whole
Ioc namespace follows the specification's data model and component design. -/
inductive BindingSource where
  | definitionRef (id : String)
  | configValue (path : String)
  | pluginRef (id : String)
  | literal (v : String)
deriving DecidableEq, Repr

/-- Modelled from the spec: where an injected value is placed (spec
section 3) — a positional parameter of a class-like module, a named
property, or a positional parameter of a plain function. -/
inductive TargetKind where
  | ctorParameter (position : Nat)
  | namedProperty (name : String)
  | functionParameter (position : Nat)
deriving DecidableEq, Repr

/-- Modelled from the spec: one dependency edge of a Definition. -/
structure InjectionPoint where
  target : TargetKind
  source : BindingSource
deriving DecidableEq, Repr

/-- Modelled from the spec: the kind tag of a Definition. -/
inductive DefKind where
  | classLike
  | plainFunction
  | valueProvider
deriving DecidableEq, Repr

/-- Modelled from the spec: one discoverable module's metadata record (spec
section 3). `constructFails` and `initFails` model the observable behaviour
of the module's own code: whether constructing it throws, and whether its
asynchronous initialization hook rejects, each with a cause. -/
structure Definition where
  identifier : String
  kind : DefKind
  dependencies : List InjectionPoint
  isAsyncInit : Bool
  constructFails : Option String
  initFails : Option String
deriving DecidableEq, Repr

/-- Modelled from the spec: the error taxonomy of section 7 (the scanner-only
errors are omitted since the analysed claims do not involve the scanner). -/
inductive IocError where
  | duplicateIdentifier (id : String)
  | unknownIdentifier (id : String)
  | unresolvedReference (id : String)
  | circularDependency (path : List String)
  | initializationFailed (id : String) (cause : String)
  | notReadyYet
deriving DecidableEq, Repr

/-- The Definition Registry is the list of Definitions in registration
order; lookup returns the first Definition carrying the identifier. -/
def findDef (reg : List Definition) (id : String) : Option Definition :=
  reg.find? (fun d => d.identifier = id)

/-- Modelled from the spec: registry registration (section 4.1) — rejected
with DuplicateIdentifier when the identifier is already present, otherwise
appended, so the registry retains first registrations. -/
def register (reg : List Definition) (d : Definition) : Except IocError (List Definition) :=
  if reg.any (fun e => e.identifier = d.identifier) then
    .error (.duplicateIdentifier d.identifier)
  else
    .ok (reg ++ [d])

/-- Identifiers of the definition-reference InjectionPoints of a Definition,
in declaration order. Configuration, plugin and literal sources are not
graph edges (spec section 4.3). -/
def depsOf (d : Definition) : List String :=
  d.dependencies.filterMap (fun ip =>
    match ip.source with
    | .definitionRef id => some id
    | _ => none)

/-- Cycle path reported when the depth-first search meets an in-progress
node: the portion of the visiting stack from the revisited identifier to the
top, closed by repeating the revisited identifier. -/
def cyclePath (inProg : List String) (id : String) : List String :=
  ((inProg.takeWhile (fun x => x ≠ id)) ++ [id]).reverse ++ [id]

/-- Visit every dependency in declaration order with the supplied visitor,
threading the accumulated output order and stopping at the first error. -/
def visitDeps (visitF : String → List String → Except IocError (List String)) :
    List String → List String → Except IocError (List String)
  | [], done => .ok done
  | dep :: rest, done =>
    match visitF dep done with
    | .error e => .error e
    | .ok done' => visitDeps visitF rest done'

/-- Modelled from the spec: the Dependency Resolver's depth-first visit
(section 4.3). `done` holds the finished nodes in output order, `inProg` the
in-progress stack (most recent first). A finished node is skipped, an
in-progress node signals a cycle, an unregistered node is an unresolved
reference, and otherwise the node's definition-reference dependencies are
visited before the node is appended to the output. Fuel bounds the recursion
depth; it is set above the largest possible stack so it never runs out. -/
def visit (reg : List Definition) : Nat → String → List String → List String →
    Except IocError (List String)
  | 0, _, inProg, _ => .error (.circularDependency inProg.reverse)
  | Nat.succ fuel, id, inProg, done =>
    if id ∈ done then .ok done
    else if id ∈ inProg then .error (.circularDependency (cyclePath inProg id))
    else
      match findDef reg id with
      | none => .error (.unresolvedReference id)
      | some d =>
        match visitDeps (fun dep dn => visit reg fuel dep (id :: inProg) dn) (depsOf d) done with
        | .error e => .error e
        | .ok done' => .ok (done' ++ [id])

/-- Modelled from the spec: run the depth-first visit from every registered
Definition in original registration order (the deterministic tie-break of
section 4.3). -/
def resolveAll (reg : List Definition) : List Definition → List String →
    Except IocError (List String)
  | [], done => .ok done
  | d :: rest, done =>
    match visit reg (reg.length + 1) d.identifier [] done with
    | .error e => .error e
    | .ok done' => resolveAll reg rest done'

/-- Modelled from the spec: the Dependency Resolver — the ResolvedGraph as
the ordered sequence of identifiers, or the first resolution error. -/
def resolve (reg : List Definition) : Except IocError (List String) :=
  resolveAll reg reg []

/-- Modelled from the spec: the live object produced for a Definition,
recorded by the identifier of the Definition it was built from. -/
structure Instance where
  defId : String
deriving DecidableEq, Repr

/-- Observable initialization events of the Instance Factory: construction
of an Instance, and start and completion of an asynchronous initialization
hook. -/
inductive Event where
  | constructed (id : String)
  | initStart (id : String)
  | initEnd (id : String)
deriving DecidableEq, Repr

/-- State threaded through the Instance Factory: the live instance map in
construction order and the recorded event trace. -/
structure FactoryState where
  instances : List (String × Instance)
  trace : List Event
deriving DecidableEq, Repr

/-- Modelled from the spec: process one Definition of the ResolvedGraph
(section 4.4) — construct the Instance, then, when the Definition declares
an asynchronous initialization hook, run it to completion before the
Definition counts as processed; any construction or initialization failure
surfaces as InitializationFailed with the identifier and cause. -/
def processOne (reg : List Definition) (st : FactoryState) (id : String) :
    Except IocError FactoryState :=
  match findDef reg id with
  | none => .error (.unknownIdentifier id)
  | some d =>
    match d.constructFails with
    | some cause => .error (.initializationFailed d.identifier cause)
    | none =>
      let st1 : FactoryState :=
        ⟨st.instances ++ [(d.identifier, ⟨d.identifier⟩)],
         st.trace ++ [.constructed d.identifier]⟩
      if d.isAsyncInit then
        match d.initFails with
        | some cause => .error (.initializationFailed d.identifier cause)
        | none =>
          .ok ⟨st1.instances, st1.trace ++ [.initStart d.identifier, .initEnd d.identifier]⟩
      else
        .ok st1

/-- Modelled from the spec: the Instance Factory consumes the ResolvedGraph
in order, aborting at the first failure without retry. -/
def runFactory (reg : List Definition) : List String → FactoryState →
    Except IocError FactoryState
  | [], st => .ok st
  | id :: rest, st =>
    match processOne reg st id with
    | .error e => .error e
    | .ok st' => runFactory reg rest st'

/-- Modelled from the spec: the Container's readiness gate (section 4.5) —
resolve the registry, then run the Instance Factory over the ResolvedGraph;
the result is the completed factory state or the first startup error. -/
def ready (reg : List Definition) : Except IocError FactoryState :=
  match resolve reg with
  | .error e => .error e
  | .ok order => runFactory reg order ⟨[], []⟩

/-- Modelled from the spec: the Container's lookup (section 4.5) — before a
successful readiness it fails with NotReadyYet; afterwards it returns the
completed Instance, or UnknownIdentifier for an unknown identifier. -/
def containerGet (r : Except IocError FactoryState) (id : String) : Except IocError Instance :=
  match r with
  | .error _ => .error .notReadyYet
  | .ok st =>
    match st.instances.lookup id with
    | some inst => .ok inst
    | none => .error (.unknownIdentifier id)

/-- An identifier is registered when registry lookup finds a Definition. -/
def Registered (reg : List Definition) (id : String) : Prop :=
  (findDef reg id).isSome = true

instance (reg : List Definition) (id : String) : Decidable (Registered reg id) := by
  unfold Registered
  infer_instance

/-- Dependency edge of the resolver's graph: `a` depends on `b` through a
definition-reference InjectionPoint of the Definition found for `a`. -/
def Edge (reg : List Definition) (a b : String) : Prop :=
  ∃ d, findDef reg a = some d ∧ b ∈ depsOf d

/-- The dependency graph has a cycle: some identifier reaches itself through
a nonempty chain of definition-reference edges. -/
def HasCycle (reg : List Definition) : Prop :=
  ∃ a, Relation.TransGen (Edge reg) a a

/-- Every definition-reference of every registered Definition names a
registered identifier. -/
def AllRefsResolve (reg : List Definition) : Prop :=
  ∀ d ∈ reg, ∀ b ∈ depsOf d, Registered reg b

instance (reg : List Definition) : Decidable (AllRefsResolve reg) := by
  unfold AllRefsResolve
  infer_instance

/-- The order is a valid topological sort for the registry: every
definition-reference dependency of a listed Definition appears strictly
earlier in the order. -/
def topoSorted (reg : List Definition) (order : List String) : Prop :=
  ∀ a d, a ∈ order → findDef reg a = some d → ∀ b ∈ depsOf d,
    ∃ l₁ l₂, order = l₁ ++ a :: l₂ ∧ b ∈ l₁

/-- Invariant of the resolver's accumulated output: no duplicates,
topologically sorted, and only registered identifiers. -/
def DoneInv (reg : List Definition) (done : List String) : Prop :=
  done.Nodup ∧ topoSorted reg done ∧ ∀ x ∈ done, Registered reg x

/-- Executable bounded reachability along definition-reference edges, used
to state the registration-order tie-break property of the specification. -/
def dependsOnB (reg : List Definition) : Nat → String → String → Bool
  | 0, _, _ => false
  | Nat.succ fuel, a, b =>
    match findDef reg a with
    | none => false
    | some d => (depsOf d).any (fun c => c = b || dependsOnB reg fuel c b)

/-- Transitive dependency along definition-reference edges, with fuel
covering every simple path of the registry. -/
def dependsOn (reg : List Definition) (a b : String) : Bool :=
  dependsOnB reg (reg.length + 1) a b

/-- Position of the first occurrence of an identifier in a list. -/
def posIn : List String → String → Nat
  | [], _ => 0
  | x :: l, a => if x = a then 0 else posIn l a + 1

/-- The tie-break property asserted of the resolver's output: any two
registered Definitions with no mutual (even transitive) definition-reference
dependency appear in the output in their original registration order. -/
def RegOrderTieBreak (reg : List Definition) (order : List String) : Prop :=
  ∀ d1 ∈ reg, ∀ d2 ∈ reg,
    dependsOn reg d1.identifier d2.identifier = false →
    dependsOn reg d2.identifier d1.identifier = false →
    posIn (reg.map (fun d => d.identifier)) d1.identifier <
      posIn (reg.map (fun d => d.identifier)) d2.identifier →
    posIn order d1.identifier < posIn order d2.identifier

instance (reg : List Definition) (order : List String) :
    Decidable (RegOrderTieBreak reg order) := by
  unfold RegOrderTieBreak
  infer_instance

/-- Concatenated event blocks the factory appends for an order, one block
per identifier: a construction event, followed by the initialization start
and completion events when the Definition declares an async hook. -/
def blockOf (reg : List Definition) (id : String) : List Event :=
  match findDef reg id with
  | none => []
  | some d =>
    [.constructed d.identifier] ++
      (if d.isAsyncInit then [.initStart d.identifier, .initEnd d.identifier] else [])

/-- Event blocks of a whole order, concatenated in order. -/
def blocksOf (reg : List Definition) : List String → List Event
  | [] => []
  | id :: rest => blockOf reg id ++ blocksOf reg rest

/-- The registry value after a registration attempt: the new registry on
success, the unchanged registry on failure. -/
def registerOrKeep (reg : List Definition) (d : Definition) : List Definition :=
  match register reg d with
  | .ok reg' => reg'
  | .error _ => reg

/-- Definition A of the two-cycle example: references B. -/
def abA : Definition := ⟨"A", .classLike, [⟨.ctorParameter 0, .definitionRef "B"⟩], false, none, none⟩

/-- Definition B of the two-cycle example: references A. -/
def abB : Definition := ⟨"B", .classLike, [⟨.ctorParameter 0, .definitionRef "A"⟩], false, none, none⟩

/-- Registry containing the two-cycle A to B to A. -/
def abReg : List Definition := [abA, abB]

/-- Cycle path reported by the resolver on the two-cycle registry. -/
def abCyclePath : List String :=
  match resolve abReg with
  | .error (.circularDependency p) => p
  | _ => []

/-- Tie-break counterexample: A references C. -/
def cexA : Definition := ⟨"A", .classLike, [⟨.ctorParameter 0, .definitionRef "C"⟩], false, none, none⟩

/-- Tie-break counterexample: B has no dependencies. -/
def cexB : Definition := ⟨"B", .classLike, [], false, none, none⟩

/-- Tie-break counterexample: C has no dependencies. -/
def cexC : Definition := ⟨"C", .classLike, [], false, none, none⟩

/-- Tie-break counterexample registry, registered in the order A, B, C.
B and C have no mutual dependency, yet the resolver emits C before B. -/
def cexReg : List Definition := [cexA, cexB, cexC]

/-- Witness registry for the topological-order theorem: A references B. -/
def w1Reg : List Definition :=
  [⟨"A", .classLike, [⟨.ctorParameter 0, .definitionRef "B"⟩], false, none, none⟩,
   ⟨"B", .classLike, [], false, none, none⟩]

/-- Async ordering witness: A references B and both declare async hooks. -/
def w3A : Definition := ⟨"A", .classLike, [⟨.ctorParameter 0, .definitionRef "B"⟩], true, none, none⟩

/-- Async ordering witness: B declares an async hook. -/
def w3B : Definition := ⟨"B", .classLike, [], true, none, none⟩

/-- Async ordering witness registry. -/
def w3Reg : List Definition := [w3A, w3B]

/-- Factory state produced by readiness on the async ordering witness
registry: B is fully initialized before A is even constructed. -/
def w3St : FactoryState :=
  ⟨[("B", ⟨"B"⟩), ("A", ⟨"A"⟩)],
   [.constructed "B", .initStart "B", .initEnd "B",
    .constructed "A", .initStart "A", .initEnd "A"]⟩

/-- Failure witness: C declares an async hook that rejects. -/
def w4C : Definition := ⟨"C", .classLike, [], true, none, some "simulated error"⟩

/-- Failure witness registry. -/
def w4Reg : List Definition := [w4C]

/-- Success witness registry: a single dependency-free Definition. -/
def w5Reg : List Definition := [⟨"A", .classLike, [], false, none, none⟩]

/-- Duplicate registration witness: the already-registered Definition. -/
def w6A : Definition := ⟨"A", .classLike, [], false, none, none⟩

/-- Duplicate registration witness: a second Definition reusing the same
identifier. -/
def w6A' : Definition := ⟨"A", .plainFunction, [], true, none, none⟩

/-- Duplicate registration witness registry holding the first A. -/
def w6Reg : List Definition := [w6A]

/-- Singleton witness: a function-kind Definition. -/
def w7F : Definition := ⟨"F", .plainFunction, [], false, none, none⟩

/-- Singleton witness registry. -/
def w7Reg : List Definition := [w7F]

/-- Factory state produced by readiness on the singleton witness registry. -/
def w7St : FactoryState := ⟨[("F", ⟨"F"⟩)], [.constructed "F"]⟩

end Ioc

deriving instance DecidableEq for Except

namespace AwsPlugin

/-- Concrete plugin environment for exercising `getCredentials`: every
credential source is empty. -/
def env0 : AwsEnv :=
  ⟨fun _ => ⟨none, none, none, none⟩, fun _ => ⟨none, none, none, none⟩, fun _ => none⟩

/-- Concrete plugin state with an empty credential cache. -/
def st0 : PluginState := ⟨none, none, none, none, none, none, none, none⟩

/-- Result of the first `getCredentials` call on the empty environment. -/
def res0 : CredResult := ⟨none, some "v4"⟩

/-- Plugin state after the first `getCredentials` call on the empty
environment: the result has been cached. -/
def st1 : PluginState := ⟨none, none, none, none, none, none, none, some res0⟩

/-- Unfolding of `firstValue` on the three-element lists built by
`getRegionSourceValue` and `getStageSourceValue`. -/
theorem truthy_none : truthy none = false := rfl

theorem firstValue_triple (a b c : SourceValue) :
    firstValue [a, b, c] =
      if truthy a.value = true then a
      else if truthy b.value = true then b
      else c := by
  by_cases ha : truthy a.value = true <;> by_cases hb : truthy b.value = true <;>
    simp [firstValue, ha, hb, truthy_none]

/-- The JavaScript fallback returns the stored string when the value is
truthy and the default otherwise. -/
theorem orDefault_eq (v : Option String) (d : String) :
    orDefault v d = if truthy v = true then v.getD "" else d := by
  cases v with
  | none => simp [orDefault, truthy]
  | some s => by_cases h : s = "" <;> simp [orDefault, truthy, h]

/-- C8: `impl.validCredentials` holds exactly for a non-null credentials
object in which either both the access key id and the secret access key are
truthy and neither is the literal string "undefined", or the role ARN is
truthy. -/
theorem validCredentials_spec (c : Option Credentials) :
    validCredentials c = true ↔
      ∃ cr, c = some cr ∧
        ((truthy cr.accessKeyId = true ∧ cr.accessKeyId ≠ some "undefined" ∧
          truthy cr.secretAccessKey = true ∧ cr.secretAccessKey ≠ some "undefined") ∨
         truthy cr.roleArn = true) := by
  cases c with
  | none => simp [validCredentials]
  | some cr =>
    simp only [validCredentials, Bool.or_eq_true, Bool.and_eq_true, decide_eq_true_eq,
      Option.some.injEq]
    constructor
    · rintro (⟨⟨⟨h1, h2⟩, h3⟩, h4⟩ | h5)
      · exact ⟨cr, rfl, Or.inl ⟨h1, h2, h3, h4⟩⟩
      · exact ⟨cr, rfl, Or.inr h5⟩
    · rintro ⟨cr', hcr, ⟨h1, h2, h3, h4⟩ | h5⟩
      · cases hcr; exact Or.inl ⟨⟨⟨h1, h2⟩, h3⟩, h4⟩
      · cases hcr; exact Or.inr h5

/-- C9: `getRegion` returns the first truthy value among `options.region`,
`serverless.config.region` and `serverless.service.provider.region`, in that
order of precedence, and the default "us-east-1" when none is truthy;
`getStage` does the same over the stage paths with the default "dev". -/
theorem getRegion_getStage_spec (st : PluginState) :
    getRegion st =
      (if truthy st.options_region = true then st.options_region.getD ""
       else if truthy st.serverless_config_region = true then st.serverless_config_region.getD ""
       else if truthy st.serverless_provider_region = true then st.serverless_provider_region.getD ""
       else "us-east-1") ∧
    getStage st =
      (if truthy st.options_stage = true then st.options_stage.getD ""
       else if truthy st.serverless_config_stage = true then st.serverless_config_stage.getD ""
       else if truthy st.serverless_provider_stage = true then st.serverless_provider_stage.getD ""
       else "dev") := by
  constructor
  · unfold getRegion getRegionSourceValue
    rw [firstValue_triple]
    by_cases h1 : truthy st.options_region = true <;>
      by_cases h2 : truthy st.serverless_config_region = true <;>
        by_cases h3 : truthy st.serverless_provider_region = true <;>
          simp [h1, h2, h3, orDefault_eq]
  · unfold getStage getStageSourceValue
    rw [firstValue_triple]
    by_cases h1 : truthy st.options_stage = true <;>
      by_cases h2 : truthy st.serverless_config_stage = true <;>
        by_cases h3 : truthy st.serverless_provider_stage = true <;>
          simp [h1, h2, h3, orDefault_eq]

/-- C10: a successful `getCredentials` call stores its result in the
credential cache, and any later call — even against a different credential
environment, so without re-reading profile or environment sources — returns
the very same result and leaves the state unchanged. -/
theorem getCredentials_cached (env env' : AwsEnv) (st : PluginState)
    (r : CredResult) (st' : PluginState)
    (h : getCredentials env st = .ok (r, st')) :
    st'.cachedCredentials = some r ∧ getCredentials env' st' = .ok (r, st') := by
  have hcache : st'.cachedCredentials = some r := by
    unfold getCredentials at h
    split at h
    next c hc =>
      injection h with h'
      injection h' with hr hst
      rw [← hst, hc, hr]
    next hc =>
      split at h
      · exact absurd h (by simp)
      · injection h with h'
        injection h' with hr hst
        rw [← hst, ← hr]
  refine ⟨hcache, ?_⟩
  unfold getCredentials
  rw [hcache]

/-- Witness for C10 at a concrete empty credential environment. -/
theorem getCredentials_cached_witness :
    getCredentials env0 st0 = .ok (res0, st1) ∧
    (st1.cachedCredentials = some res0 ∧ getCredentials env0 st1 = .ok (res0, st1)) :=
  ⟨rfl, getCredentials_cached env0 env0 st0 res0 st1 rfl⟩

end AwsPlugin

namespace Ioc

theorem visit_zero (reg : List Definition) (id : String) (inProg done : List String) :
    visit reg 0 id inProg done = .error (.circularDependency inProg.reverse) := rfl

theorem visit_succ (reg : List Definition) (fuel : Nat) (id : String) (inProg done : List String) :
    visit reg (fuel + 1) id inProg done =
      if id ∈ done then .ok done
      else if id ∈ inProg then .error (.circularDependency (cyclePath inProg id))
      else
        match findDef reg id with
        | none => .error (.unresolvedReference id)
        | some d =>
          match visitDeps (fun dep dn => visit reg fuel dep (id :: inProg) dn) (depsOf d) done with
          | .error e => .error e
          | .ok done' => .ok (done' ++ [id]) := rfl

theorem findDef_identifier {reg : List Definition} {id : String} {d : Definition}
    (h : findDef reg id = some d) : d.identifier = id ∧ d ∈ reg := by
  unfold findDef at h
  exact ⟨by simpa using List.find?_some h, List.mem_of_find?_eq_some h⟩

theorem registered_of_mem {reg : List Definition} {d : Definition} (h : d ∈ reg) :
    Registered reg d.identifier := by
  unfold Registered findDef
  rw [List.find?_isSome]
  exact ⟨d, h, by simp⟩

theorem registered_mem_map {reg : List Definition} {id : String}
    (h : Registered reg id) : id ∈ reg.map (fun d => d.identifier) := by
  unfold Registered at h
  rw [Option.isSome_iff_exists] at h
  obtain ⟨d, hd⟩ := h
  obtain ⟨hid, hmem⟩ := findDef_identifier hd
  exact hid ▸ List.mem_map_of_mem _ hmem

theorem findDef_self_of_nodup {reg : List Definition} {d : Definition}
    (hnodup : (reg.map (fun e => e.identifier)).Nodup) (h : d ∈ reg) :
    findDef reg d.identifier = some d := by
  unfold findDef
  induction reg with
  | nil => cases h
  | cons e rest ih =>
    rcases List.mem_cons.mp h with rfl | hmem
    · simp
    · have hne : e.identifier ≠ d.identifier := by
        intro heq
        have : d.identifier ∈ rest.map (fun x => x.identifier) :=
          List.mem_map_of_mem _ hmem
        rw [List.map_cons, List.nodup_cons] at hnodup
        exact hnodup.1 (heq ▸ this)
      have hdec : (decide (e.identifier = d.identifier)) = false := by simp [hne]
      simp only [List.find?_cons, hdec]
      exact ih (by rw [List.map_cons, List.nodup_cons] at hnodup; exact hnodup.2) hmem

theorem posIn_lt_length {l : List String} {b : String} (h : b ∈ l) :
    posIn l b < l.length := by
  induction l with
  | nil => cases h
  | cons x xs ih =>
    by_cases hxb : x = b
    · simp [posIn, hxb]
    · rcases List.mem_cons.mp h with rfl | hmem
      · exact absurd rfl hxb
      · simp only [posIn, if_neg hxb, List.length_cons]
        exact Nat.succ_lt_succ (ih hmem)

theorem posIn_append_left {l₁ : List String} (l₂ : List String) {b : String} (h : b ∈ l₁) :
    posIn (l₁ ++ l₂) b = posIn l₁ b := by
  induction l₁ with
  | nil => cases h
  | cons x xs ih =>
    by_cases hxb : x = b
    · simp [posIn, hxb]
    · rcases List.mem_cons.mp h with rfl | hmem
      · exact absurd rfl hxb
      · simp only [List.cons_append, posIn, if_neg hxb, List.append_eq]
        rw [ih hmem]

theorem posIn_append_not_mem {l₁ : List String} {a : String} (l₂ : List String) (h : a ∉ l₁) :
    posIn (l₁ ++ a :: l₂) a = l₁.length := by
  induction l₁ with
  | nil => simp [posIn]
  | cons x xs ih =>
    have hxa : x ≠ a := fun heq => h (heq ▸ List.mem_cons_self x xs)
    simp only [List.cons_append, posIn, if_neg hxa, List.length_cons, List.append_eq]
    rw [ih (fun hm => h (List.mem_cons_of_mem x hm))]

theorem posIn_split_lt {l₁ l₂ : List String} {a b : String}
    (hnodup : (l₁ ++ a :: l₂).Nodup) (hb : b ∈ l₁) :
    posIn (l₁ ++ a :: l₂) b < posIn (l₁ ++ a :: l₂) a := by
  have hanotin : a ∉ l₁ := by
    intro hmem
    rw [List.nodup_append] at hnodup
    exact hnodup.2.2 hmem (List.mem_cons_self a l₂)
  rw [posIn_append_not_mem l₂ hanotin, posIn_append_left (a :: l₂) hb]
  exact posIn_lt_length hb

theorem stack_reaches_head (reg : List Definition) :
    ∀ (l : List String) (h : String) (t : List String), l = h :: t →
      List.Chain' (fun x y => Edge reg y x) l →
      ∀ a ∈ l, Relation.ReflTransGen (Edge reg) a h := by
  intro l
  induction l with
  | nil => intro h t heq; cases heq
  | cons x xs ih =>
    intro h t heq hchain a ha
    have hx : x = h := by injection heq
    subst hx
    cases xs with
    | nil =>
      have : a = x := by simpa using ha
      subst this
      exact Relation.ReflTransGen.refl
    | cons y ys =>
      rcases List.mem_cons.mp ha with rfl | hmem
      · exact Relation.ReflTransGen.refl
      · have hsplit := List.chain'_cons.mp hchain
        have hrest := ih y ys rfl hsplit.2 a hmem
        exact hrest.tail hsplit.1

theorem cycle_of_stack (reg : List Definition) (inProg : List String) (id : String)
    (hmem : id ∈ inProg)
    (hchain : List.Chain' (fun x y => Edge reg y x) inProg)
    (hlink : ∀ h t, inProg = h :: t → Edge reg h id) :
    HasCycle reg := by
  cases inProg with
  | nil => cases hmem
  | cons h t =>
    have hreach := stack_reaches_head reg (h :: t) h t rfl hchain id hmem
    exact ⟨id, Relation.TransGen.tail' hreach (hlink h t rfl)⟩

theorem doneInv_nil (reg : List Definition) : DoneInv reg [] := by
  refine ⟨List.nodup_nil, ?_, ?_⟩
  · intro a d ha
    cases ha
  · intro x hx
    cases hx

theorem doneInv_append (reg : List Definition) (done : List String) (id : String) (d : Definition)
    (hdone : DoneInv reg done) (hid : id ∉ done) (hfind : findDef reg id = some d)
    (hdeps : ∀ b ∈ depsOf d, b ∈ done) :
    DoneInv reg (done ++ [id]) := by
  obtain ⟨hnd, htopo, hregd⟩ := hdone
  refine ⟨?_, ?_, ?_⟩
  · rw [List.nodup_append]
    refine ⟨hnd, List.nodup_singleton id, ?_⟩
    intro x hx hxid
    rw [List.mem_singleton] at hxid
    exact hid (hxid ▸ hx)
  · intro a da ha hfinda b hb
    rcases List.mem_append.mp ha with ha1 | ha2
    · obtain ⟨l₁, l₂, hsplit, hbmem⟩ := htopo a da ha1 hfinda b hb
      exact ⟨l₁, l₂ ++ [id], by rw [hsplit, List.append_assoc, List.cons_append], hbmem⟩
    · have haid : a = id := by simpa using ha2
      subst haid
      rw [hfind] at hfinda
      injection hfinda with hda
      subst hda
      exact ⟨done, [], rfl, hdeps b hb⟩
  · intro x hx
    rcases List.mem_append.mp hx with hx1 | hx2
    · exact hregd x hx1
    · have hxid : x = id := by simpa using hx2
      subst hxid
      unfold Registered
      rw [hfind]
      rfl

theorem visitDeps_sound (visitF : String → List String → Except IocError (List String))
    (Q : List String → Prop) (Good : String → Prop) (ErrC : IocError → Prop)
    (hF : ∀ dep done, Good dep → Q done →
      (∀ done', visitF dep done = .ok done' →
        (∃ delta, done' = done ++ delta) ∧ dep ∈ done' ∧ Q done') ∧
      (∀ e, visitF dep done = .error e → ErrC e)) :
    ∀ (deps : List String) (done : List String), (∀ dep ∈ deps, Good dep) → Q done →
      (∀ done', visitDeps visitF deps done = .ok done' →
        (∃ delta, done' = done ++ delta) ∧ (∀ dep ∈ deps, dep ∈ done') ∧ Q done') ∧
      (∀ e, visitDeps visitF deps done = .error e → ErrC e) := by
  intro deps
  induction deps with
  | nil =>
    intro done hgood hQ
    constructor
    · intro done' hok
      unfold visitDeps at hok
      injection hok with h
      subst h
      refine ⟨⟨[], by simp⟩, ?_, hQ⟩
      intro dep hdep
      cases hdep
    · intro e herr
      unfold visitDeps at herr
      exact absurd herr (by simp)
  | cons dep rest ih =>
    intro done hgood hQ
    have hFd := hF dep done (hgood dep (List.mem_cons_self _ _)) hQ
    constructor
    · intro done' hok
      unfold visitDeps at hok
      cases hv : visitF dep done with
      | error e =>
        rw [hv] at hok
        exact absurd hok (by simp)
      | ok done₁ =>
        rw [hv] at hok
        obtain ⟨⟨delta₁, hdelta₁⟩, hdep₁, hQ₁⟩ := hFd.1 done₁ hv
        obtain ⟨⟨delta₂, hdelta₂⟩, hdeps₂, hQ₂⟩ :=
          (ih done₁ (fun x hx => hgood x (List.mem_cons_of_mem _ hx)) hQ₁).1 done' hok
        refine ⟨⟨delta₁ ++ delta₂, by rw [hdelta₂, hdelta₁, List.append_assoc]⟩, ?_, hQ₂⟩
        intro x hx
        rcases List.mem_cons.mp hx with rfl | hmem
        · rw [hdelta₂]
          exact List.mem_append_left _ hdep₁
        · exact hdeps₂ x hmem
    · intro e herr
      unfold visitDeps at herr
      cases hv : visitF dep done with
      | error e' =>
        rw [hv] at herr
        injection herr with h
        exact h ▸ hFd.2 e' hv
      | ok done₁ =>
        rw [hv] at herr
        obtain ⟨_, _, hQ₁⟩ := hFd.1 done₁ hv
        exact (ih done₁ (fun x hx => hgood x (List.mem_cons_of_mem _ hx)) hQ₁).2 e herr

theorem visit_sound (reg : List Definition) :
    ∀ (fuel : Nat) (id : String) (inProg done : List String),
      reg.length + 1 ≤ fuel + inProg.length →
      inProg.Nodup →
      (∀ x ∈ inProg, Registered reg x) →
      List.Chain' (fun x y => Edge reg y x) inProg →
      (∀ h t, inProg = h :: t → Edge reg h id) →
      DoneInv reg done →
      (∀ x ∈ inProg, x ∉ done) →
      (∀ done', visit reg fuel id inProg done = .ok done' →
        (∃ delta, done' = done ++ delta) ∧ id ∈ done' ∧ DoneInv reg done' ∧
        (∀ x ∈ inProg, x ∉ done')) ∧
      (∀ e, visit reg fuel id inProg done = .error e →
        (HasCycle reg ∧ ∃ p, e = .circularDependency p) ∨
        (∃ x, e = .unresolvedReference x ∧ ¬ Registered reg x ∧
          (x = id ∨ ∃ a d, findDef reg a = some d ∧ x ∈ depsOf d))) := by
  intro fuel
  induction fuel with
  | zero =>
    intro id inProg done hfuel hnd hregp hchain hlink hdone hdisj
    exfalso
    have hsub : inProg ⊆ reg.map (fun d => d.identifier) :=
      fun x hx => registered_mem_map (hregp x hx)
    have hle := (List.subperm_of_subset hnd hsub).length_le
    rw [List.length_map] at hle
    omega
  | succ fuel ih =>
    intro id inProg done hfuel hnd hregp hchain hlink hdone hdisj
    by_cases hmemd : id ∈ done
    · constructor
      · intro done' hok
        rw [visit_succ, if_pos hmemd] at hok
        injection hok with h
        subst h
        exact ⟨⟨[], by simp⟩, hmemd, hdone, hdisj⟩
      · intro e herr
        rw [visit_succ, if_pos hmemd] at herr
        exact absurd herr (by simp)
    · by_cases hmemp : id ∈ inProg
      · constructor
        · intro done' hok
          rw [visit_succ, if_neg hmemd, if_pos hmemp] at hok
          exact absurd hok (by simp)
        · intro e herr
          rw [visit_succ, if_neg hmemd, if_pos hmemp] at herr
          injection herr with h
          exact Or.inl ⟨cycle_of_stack reg inProg id hmemp hchain hlink,
            cyclePath inProg id, h.symm⟩
      · cases hfind : findDef reg id with
        | none =>
          constructor
          · intro done' hok
            rw [visit_succ, if_neg hmemd, if_neg hmemp] at hok
            simp [hfind] at hok
          · intro e herr
            rw [visit_succ, if_neg hmemd, if_neg hmemp] at herr
            simp only [hfind] at herr
            injection herr with h
            refine Or.inr ⟨id, h.symm, ?_, Or.inl rfl⟩
            unfold Registered
            rw [hfind]
            simp
        | some d =>
          have hnd' : (id :: inProg).Nodup := List.nodup_cons.mpr ⟨hmemp, hnd⟩
          have hregp' : ∀ x ∈ id :: inProg, Registered reg x := by
            intro x hx
            rcases List.mem_cons.mp hx with rfl | hmem
            · unfold Registered
              rw [hfind]
              rfl
            · exact hregp x hmem
          have hchain' : List.Chain' (fun x y => Edge reg y x) (id :: inProg) := by
            cases inProg with
            | nil => simp
            | cons h t => exact List.chain'_cons.mpr ⟨hlink h t rfl, hchain⟩
          have hF : ∀ dep done₀, dep ∈ depsOf d →
              (DoneInv reg done₀ ∧ ∀ x ∈ id :: inProg, x ∉ done₀) →
              (∀ done', visit reg fuel dep (id :: inProg) done₀ = .ok done' →
                (∃ delta, done' = done₀ ++ delta) ∧ dep ∈ done' ∧
                (DoneInv reg done' ∧ ∀ x ∈ id :: inProg, x ∉ done')) ∧
              (∀ e, visit reg fuel dep (id :: inProg) done₀ = .error e →
                (HasCycle reg ∧ ∃ p, e = .circularDependency p) ∨
                (∃ x, e = .unresolvedReference x ∧ ¬ Registered reg x ∧
                  (x = id ∨ ∃ a d', findDef reg a = some d' ∧ x ∈ depsOf d'))) := by
            intro dep done₀ hgood hQ₀
            obtain ⟨hdone₀, hdisj₀⟩ := hQ₀
            have hlink' : ∀ h t, id :: inProg = h :: t → Edge reg h dep := by
              intro h t heq
              have hh : h = id := by injection heq with h1 h2; exact h1.symm
              subst hh
              exact ⟨d, hfind, hgood⟩
            have hrec := ih dep (id :: inProg) done₀
              (by simp only [List.length_cons]; omega)
              hnd' hregp' hchain' hlink' hdone₀ hdisj₀
            constructor
            · intro done' hok
              obtain ⟨hdelta, hdepmem, hdone', hdisj'⟩ := hrec.1 done' hok
              exact ⟨hdelta, hdepmem, hdone', hdisj'⟩
            · intro e herr
              rcases hrec.2 e herr with hc | ⟨x, hx, hnreg, hx2⟩
              · exact Or.inl hc
              · refine Or.inr ⟨x, hx, hnreg, ?_⟩
                rcases hx2 with rfl | hex
                · exact Or.inr ⟨id, d, hfind, hgood⟩
                · exact Or.inr hex
          have hvd := visitDeps_sound
            (fun dep dn => visit reg fuel dep (id :: inProg) dn)
            (fun done₀ => DoneInv reg done₀ ∧ ∀ x ∈ id :: inProg, x ∉ done₀)
            (fun dep => dep ∈ depsOf d)
            (fun e => (HasCycle reg ∧ ∃ p, e = .circularDependency p) ∨
              (∃ x, e = .unresolvedReference x ∧ ¬ Registered reg x ∧
                (x = id ∨ ∃ a d', findDef reg a = some d' ∧ x ∈ depsOf d')))
            hF (depsOf d) done (fun dep hdep => hdep)
            ⟨hdone, by
              intro x hx
              rcases List.mem_cons.mp hx with rfl | hmem
              · exact hmemd
              · exact hdisj x hmem⟩
          constructor
          · intro done' hok
            rw [visit_succ, if_neg hmemd, if_neg hmemp] at hok
            simp only [hfind] at hok
            cases hvres : visitDeps (fun dep dn => visit reg fuel dep (id :: inProg) dn)
                (depsOf d) done with
            | error e =>
              simp [hvres] at hok
            | ok done₁ =>
              simp only [hvres] at hok
              injection hok with h
              subst h
              obtain ⟨⟨delta, hdelta⟩, hdepsin, hdone₁, hdisj₁⟩ := hvd.1 done₁ hvres
              have hidnot : id ∉ done₁ := hdisj₁ id (List.mem_cons_self _ _)
              refine ⟨⟨delta ++ [id], by rw [hdelta, List.append_assoc]⟩,
                List.mem_append_right _ (by simp),
                doneInv_append reg done₁ id d hdone₁ hidnot hfind hdepsin,
                ?_⟩
              intro x hx hmem'
              have hxne : x ≠ id := fun heq => hmemp (heq ▸ hx)
              rcases List.mem_append.mp hmem' with h1 | h2
              · exact hdisj₁ x (List.mem_cons_of_mem _ hx) h1
              · exact hxne (by simpa using h2)
          · intro e herr
            rw [visit_succ, if_neg hmemd, if_neg hmemp] at herr
            simp only [hfind] at herr
            cases hvres : visitDeps (fun dep dn => visit reg fuel dep (id :: inProg) dn)
                (depsOf d) done with
            | error e' =>
              simp only [hvres] at herr
              injection herr with h
              exact h ▸ hvd.2 e' hvres
            | ok done₁ =>
              simp [hvres] at herr

theorem resolveAll_sound (reg : List Definition) :
    ∀ (pending : List Definition) (done : List String), pending ⊆ reg → DoneInv reg done →
      (∀ done', resolveAll reg pending done = .ok done' →
        (∃ delta, done' = done ++ delta) ∧ DoneInv reg done' ∧
        ∀ d ∈ pending, d.identifier ∈ done') ∧
      (∀ e, resolveAll reg pending done = .error e →
        (HasCycle reg ∧ ∃ p, e = .circularDependency p) ∨
        (∃ x, e = .unresolvedReference x ∧ ¬ Registered reg x ∧
          ∃ a d, findDef reg a = some d ∧ x ∈ depsOf d)) := by
  intro pending
  induction pending with
  | nil =>
    intro done hsub hdone
    constructor
    · intro done' hok
      unfold resolveAll at hok
      injection hok with h
      subst h
      refine ⟨⟨[], by simp⟩, hdone, ?_⟩
      intro d hd
      cases hd
    · intro e herr
      unfold resolveAll at herr
      exact absurd herr (by simp)
  | cons d0 rest ih =>
    intro done hsub hdone
    have hv := visit_sound reg (reg.length + 1) d0.identifier [] done
      (by simp) List.nodup_nil (by intro x hx; cases hx) (by simp)
      (by intro h t heq; cases heq) hdone (by intro x hx; cases hx)
    constructor
    · intro done' hok
      unfold resolveAll at hok
      cases hvres : visit reg (reg.length + 1) d0.identifier [] done with
      | error e =>
        simp [hvres] at hok
      | ok done₁ =>
        simp only [hvres] at hok
        obtain ⟨⟨delta₁, hdelta₁⟩, hmem₁, hdone₁, -⟩ := hv.1 done₁ hvres
        obtain ⟨⟨delta₂, hdelta₂⟩, hdone₂, hmem₂⟩ :=
          (ih done₁ (fun x hx => hsub (List.mem_cons_of_mem _ hx)) hdone₁).1 done' hok
        refine ⟨⟨delta₁ ++ delta₂, by rw [hdelta₂, hdelta₁, List.append_assoc]⟩, hdone₂, ?_⟩
        intro d hd
        rcases List.mem_cons.mp hd with rfl | hmem
        · rw [hdelta₂]
          exact List.mem_append_left _ hmem₁
        · exact hmem₂ d hmem
    · intro e herr
      unfold resolveAll at herr
      cases hvres : visit reg (reg.length + 1) d0.identifier [] done with
      | error e' =>
        simp only [hvres] at herr
        injection herr with h
        rcases hv.2 e' hvres with hc | ⟨x, hx, hnreg, hx2⟩
        · exact h ▸ Or.inl hc
        · rcases hx2 with rfl | hex
          · exact absurd (registered_of_mem (hsub (List.mem_cons_self _ _))) hnreg
          · exact h ▸ Or.inr ⟨x, hx, hnreg, hex⟩
      | ok done₁ =>
        simp only [hvres] at herr
        obtain ⟨-, -, hdone₁, -⟩ := hv.1 done₁ hvres
        exact (ih done₁ (fun x hx => hsub (List.mem_cons_of_mem _ hx)) hdone₁).2 e herr

theorem resolve_ok {reg : List Definition} {order : List String}
    (h : resolve reg = .ok order) :
    DoneInv reg order ∧ ∀ d ∈ reg, d.identifier ∈ order := by
  unfold resolve at h
  obtain ⟨-, hdone, hmem⟩ :=
    (resolveAll_sound reg reg [] (fun x hx => hx) (doneInv_nil reg)).1 order h
  exact ⟨hdone, hmem⟩

theorem resolve_err {reg : List Definition} {e : IocError}
    (h : resolve reg = .error e) :
    (HasCycle reg ∧ ∃ p, e = .circularDependency p) ∨
    (∃ x, e = .unresolvedReference x ∧ ¬ Registered reg x ∧
      ∃ a d, findDef reg a = some d ∧ x ∈ depsOf d) :=
  (resolveAll_sound reg reg [] (fun x hx => hx) (doneInv_nil reg)).2 e h

theorem edge_pos_lt {reg : List Definition} {order : List String} (hdi : DoneInv reg order)
    {a b : String} (ha : a ∈ order) (hE : Edge reg a b) :
    b ∈ order ∧ posIn order b < posIn order a := by
  obtain ⟨d, hfind, hb⟩ := hE
  obtain ⟨l₁, l₂, hsplit, hbmem⟩ := hdi.2.1 a d ha hfind b hb
  subst hsplit
  exact ⟨List.mem_append_left _ hbmem, posIn_split_lt hdi.1 hbmem⟩

theorem transGen_pos_lt {reg : List Definition} {order : List String} (hdi : DoneInv reg order) :
    ∀ a b, Relation.TransGen (Edge reg) a b → a ∈ order →
      b ∈ order ∧ posIn order b < posIn order a := by
  intro a b h
  induction h with
  | single hE =>
    intro ha
    exact edge_pos_lt hdi ha hE
  | tail hab hE ih =>
    intro ha
    obtain ⟨hb, hlt⟩ := ih ha
    obtain ⟨hc, hlt2⟩ := edge_pos_lt hdi hb hE
    exact ⟨hc, Nat.lt_trans hlt2 hlt⟩

theorem transGen_exists_edge {r : String → String → Prop} {a b : String}
    (h : Relation.TransGen r a b) : ∃ c, r a c := by
  induction h with
  | single hE => exact ⟨_, hE⟩
  | tail hab hE ih => exact ih

theorem resolve_ok_no_cycle {reg : List Definition} {order : List String}
    (h : resolve reg = .ok order) : ¬ HasCycle reg := by
  rintro ⟨a, hcyc⟩
  obtain ⟨hdi, hall⟩ := resolve_ok h
  obtain ⟨c, hE⟩ := transGen_exists_edge hcyc
  obtain ⟨d, hfind, -⟩ := hE
  obtain ⟨hid, hmem⟩ := findDef_identifier hfind
  have ha : a ∈ order := hid ▸ hall d hmem
  obtain ⟨-, hlt⟩ := transGen_pos_lt hdi a a hcyc ha
  omega

theorem no_cycle_of_no_deps {reg : List Definition} (h : ∀ d ∈ reg, depsOf d = []) :
    ¬ HasCycle reg := by
  rintro ⟨a, hcyc⟩
  have noE : ∀ x y, ¬ Edge reg x y := by
    rintro x y ⟨d, hf, hdep⟩
    rw [h d (findDef_identifier hf).2] at hdep
    cases hdep
  cases hcyc with
  | single hE => exact noE _ _ hE
  | tail h₁ hE => exact noE _ _ hE

theorem resolveAll_no_deps (reg : List Definition) (hall : ∀ d ∈ reg, depsOf d = []) :
    ∀ (pending : List Definition) (done : List String), pending ⊆ reg →
      (∀ d ∈ pending, d.identifier ∉ done) →
      (pending.map (fun d => d.identifier)).Nodup →
      resolveAll reg pending done = .ok (done ++ pending.map (fun d => d.identifier)) := by
  intro pending
  induction pending with
  | nil =>
    intro done _ _ _
    simp [resolveAll]
  | cons d0 rest ih =>
    intro done hsub hnotin hnodup
    have hd0reg : d0 ∈ reg := hsub (List.mem_cons_self _ _)
    obtain ⟨d', hd'⟩ := Option.isSome_iff_exists.mp (registered_of_mem hd0reg)
    have hdeps' : depsOf d' = [] := hall d' (findDef_identifier hd').2
    have h1 : d0.identifier ∉ done := hnotin d0 (List.mem_cons_self _ _)
    have hvisit : visit reg (reg.length + 1) d0.identifier [] done =
        .ok (done ++ [d0.identifier]) := by
      rw [visit_succ, if_neg h1, if_neg (List.not_mem_nil _)]
      simp only [hd', hdeps']
      rfl
    unfold resolveAll
    simp only [hvisit]
    rw [ih (done ++ [d0.identifier])
      (fun x hx => hsub (List.mem_cons_of_mem _ hx))
      (by
        intro d hd hmem
        rcases List.mem_append.mp hmem with h2 | h3
        · exact hnotin d (List.mem_cons_of_mem _ hd) h2
        · have : d.identifier = d0.identifier := by simpa using h3
          rw [List.map_cons, List.nodup_cons] at hnodup
          exact hnodup.1 (this ▸ List.mem_map_of_mem _ hd))
      (by rw [List.map_cons, List.nodup_cons] at hnodup; exact hnodup.2)]
    rw [List.map_cons, List.append_assoc, List.singleton_append]

theorem processOne_ok_shape {reg : List Definition} {st : FactoryState} {id : String}
    {st' : FactoryState} (h : processOne reg st id = .ok st') :
    ∃ d, findDef reg id = some d ∧
      st'.instances = st.instances ++ [(id, ⟨id⟩)] ∧
      st'.trace = st.trace ++ blockOf reg id ∧
      d.constructFails = none ∧ (d.isAsyncInit = true → d.initFails = none) := by
  unfold processOne at h
  split at h
  · exact absurd h (by simp)
  next d hfind =>
    have hid := (findDef_identifier hfind).1
    split at h
    next cause hcf => exact absurd h (by simp)
    next hcf =>
      split at h
      next hasync =>
        split at h
        next cause hif => exact absurd h (by simp)
        next hif =>
          injection h with h'
          refine ⟨d, hfind, ?_, ?_, hcf, fun _ => hif⟩
          · rw [← h', hid]
          · rw [← h']
            simp [blockOf, hfind, hasync, hid, List.append_assoc]
      next hasync =>
        injection h with h'
        have hasync' : d.isAsyncInit = false := by
          cases hb : d.isAsyncInit
          · rfl
          · exact absurd hb hasync
        refine ⟨d, hfind, ?_, ?_, hcf, fun hcontra => absurd hcontra hasync⟩
        · rw [← h', hid]
        · rw [← h']
          simp [blockOf, hfind, hasync', hid]

theorem processOne_err_shape {reg : List Definition} {st : FactoryState} {id : String}
    {e : IocError} (hreg : Registered reg id) (h : processOne reg st id = .error e) :
    ∃ d cause, findDef reg id = some d ∧ e = .initializationFailed d.identifier cause ∧
      (d.constructFails = some cause ∨ d.isAsyncInit = true ∧ d.initFails = some cause) := by
  unfold processOne at h
  obtain ⟨d, hfind⟩ := Option.isSome_iff_exists.mp hreg
  simp only [hfind] at h
  split at h
  next cause hcf =>
    injection h with h'
    exact ⟨d, cause, hfind, h'.symm, Or.inl hcf⟩
  next hcf =>
    split at h
    next hasync =>
      split at h
      next cause hif =>
        injection h with h'
        exact ⟨d, cause, hfind, h'.symm, Or.inr ⟨hasync, hif⟩⟩
      next hif => exact absurd h (by simp)
    next hasync => exact absurd h (by simp)

theorem runFactory_ok_shape {reg : List Definition} :
    ∀ {order : List String} {st st' : FactoryState},
    runFactory reg order st = .ok st' →
    st'.instances = st.instances ++ order.map (fun id => (id, Instance.mk id)) ∧
    st'.trace = st.trace ++ blocksOf reg order := by
  intro order
  induction order with
  | nil =>
    intro st st' h
    unfold runFactory at h
    injection h with h'
    subst h'
    simp [blocksOf]
  | cons id rest ih =>
    intro st st' h
    unfold runFactory at h
    cases hp : processOne reg st id with
    | error e => simp [hp] at h
    | ok st₁ =>
      simp only [hp] at h
      obtain ⟨hi, ht⟩ := ih h
      obtain ⟨d, hfind, hi₁, ht₁, -, -⟩ := processOne_ok_shape hp
      constructor
      · rw [hi, hi₁, List.map_cons, List.append_assoc, List.singleton_append]
      · rw [ht, ht₁]
        show _ = st.trace ++ (blockOf reg id ++ blocksOf reg rest)
        rw [List.append_assoc]

theorem runFactory_ok_of {reg : List Definition} :
    ∀ (order : List String) (st : FactoryState),
    (∀ id ∈ order, ∃ d, findDef reg id = some d ∧ d.constructFails = none ∧
      (d.isAsyncInit = true → d.initFails = none)) →
    ∃ st', runFactory reg order st = .ok st' := by
  intro order
  induction order with
  | nil =>
    intro st _
    exact ⟨st, rfl⟩
  | cons id rest ih =>
    intro st hall
    obtain ⟨d, hfind, hcf, hif⟩ := hall id (List.mem_cons_self _ _)
    have hp : ∃ st₁, processOne reg st id = .ok st₁ := by
      cases hasync : d.isAsyncInit with
      | true =>
        exact ⟨⟨st.instances ++ [(d.identifier, ⟨d.identifier⟩)],
          st.trace ++ [.constructed d.identifier] ++
            [.initStart d.identifier, .initEnd d.identifier]⟩,
          by simp [processOne, hfind, hcf, hasync, hif hasync]⟩
      | false =>
        exact ⟨⟨st.instances ++ [(d.identifier, ⟨d.identifier⟩)],
          st.trace ++ [.constructed d.identifier]⟩,
          by simp [processOne, hfind, hcf, hasync]⟩
    obtain ⟨st₁, hp⟩ := hp
    obtain ⟨st', h⟩ := ih st₁ (fun x hx => hall x (List.mem_cons_of_mem _ hx))
    refine ⟨st', ?_⟩
    unfold runFactory
    simp only [hp]
    exact h

theorem runFactory_err_of {reg : List Definition} :
    ∀ (order : List String) (st : FactoryState),
    (∀ id ∈ order, Registered reg id) →
    (∃ id ∈ order, ∃ d, findDef reg id = some d ∧
      (d.constructFails.isSome = true ∨ d.isAsyncInit = true ∧ d.initFails.isSome = true)) →
    ∃ c cause, runFactory reg order st = .error (.initializationFailed c cause) ∧
      ∃ d', findDef reg c = some d' ∧
        (d'.constructFails = some cause ∨ d'.isAsyncInit = true ∧ d'.initFails = some cause) := by
  intro order
  induction order with
  | nil =>
    intro st _ hfail
    obtain ⟨idf, hidf, -⟩ := hfail
    cases hidf
  | cons id rest ih =>
    intro st hreg hfail
    cases hp : processOne reg st id with
    | error e =>
      obtain ⟨d, cause, hfind, he, hdisj⟩ :=
        processOne_err_shape (hreg id (List.mem_cons_self _ _)) hp
      have hid := (findDef_identifier hfind).1
      refine ⟨d.identifier, cause, ?_, d, hid ▸ hfind, hdisj⟩
      unfold runFactory
      simp only [hp]
      rw [he]
    | ok st₁ =>
      obtain ⟨d₀, hfind₀, -, -, hcf₀, hif₀⟩ := processOne_ok_shape hp
      obtain ⟨idf, hidf, d, hfindf, hfailf⟩ := hfail
      have hrest : ∃ x ∈ rest, ∃ d, findDef reg x = some d ∧
          (d.constructFails.isSome = true ∨ d.isAsyncInit = true ∧ d.initFails.isSome = true) := by
        rcases List.mem_cons.mp hidf with rfl | hmem
        · exfalso
          rw [hfind₀] at hfindf
          injection hfindf with hd
          subst hd
          rcases hfailf with h1 | ⟨h2, h3⟩
          · rw [hcf₀] at h1
            simp at h1
          · rw [hif₀ h2] at h3
            simp at h3
        · exact ⟨idf, hmem, d, hfindf, hfailf⟩
      obtain ⟨c, cause, hrun, hrest'⟩ :=
        ih st₁ (fun x hx => hreg x (List.mem_cons_of_mem _ hx)) hrest
      refine ⟨c, cause, ?_, hrest'⟩
      unfold runFactory
      simp only [hp]
      exact hrun

theorem lookup_map_self :
    ∀ (l : List String) (a : String), a ∈ l →
    List.lookup a (l.map (fun id => (id, Instance.mk id))) = some (Instance.mk a) := by
  intro l
  induction l with
  | nil =>
    intro a ha
    cases ha
  | cons x xs ih =>
    intro a ha
    rw [List.map_cons]
    by_cases hax : a = x
    · subst hax
      simp [List.lookup]
    · have : a ∈ xs := by
        rcases List.mem_cons.mp ha with rfl | hmem
        · exact absurd rfl hax
        · exact hmem
      have hbeq : (a == x) = false := by simp [hax]
      simp only [List.lookup, hbeq]
      exact ih a this

theorem count_constructed_blocksOf (reg : List Definition) :
    ∀ (order : List String), (∀ id ∈ order, Registered reg id) →
    ∀ x, List.count (Event.constructed x) (blocksOf reg order) = List.count x order := by
  intro order
  induction order with
  | nil =>
    intro _ x
    simp [blocksOf]
  | cons id rest ih =>
    intro hall x
    obtain ⟨d, hfind⟩ := Option.isSome_iff_exists.mp (hall id (List.mem_cons_self _ _))
    have hid := (findDef_identifier hfind).1
    show List.count (Event.constructed x) (blockOf reg id ++ blocksOf reg rest) = _
    rw [List.count_append, ih (fun y hy => hall y (List.mem_cons_of_mem _ hy)) x]
    have hblock : List.count (Event.constructed x) (blockOf reg id) =
        if x = id then 1 else 0 := by
      unfold blockOf
      rw [hfind]
      cases hasync : d.isAsyncInit with
      | true => by_cases hx : x = id <;> simp [hasync, hid, hx, List.count_cons]
      | false => by_cases hx : x = id <;> simp [hasync, hid, hx, List.count_cons]
    rw [hblock, List.count_cons]
    by_cases hx : x = id
    · subst hx
      simp [Nat.add_comm]
    · simp [hx]
      exact fun h => hx h.symm

end Ioc

namespace Ioc

theorem map_fst_pairs :
    ∀ (l : List String), (l.map (fun id => (id, Instance.mk id))).map Prod.fst = l := by
  intro l
  induction l with
  | nil => rfl
  | cons x xs ih => simp [ih]

theorem blocksOf_append (reg : List Definition) :
    ∀ (l₁ l₂ : List String), blocksOf reg (l₁ ++ l₂) = blocksOf reg l₁ ++ blocksOf reg l₂ := by
  intro l₁ l₂
  induction l₁ with
  | nil => simp [blocksOf]
  | cons id rest ih =>
    show blockOf reg id ++ blocksOf reg (rest ++ l₂) = blockOf reg id ++ blocksOf reg rest ++ _
    rw [ih, List.append_assoc]

/-- C1 (amended): a successful resolution is a valid topological sort — every
definition-reference dependency of a listed Definition appears strictly
earlier — without duplicates, and the output is a deterministic function of
the registry; in the degenerate case where no Definition has any
definition-reference dependency and identifiers are unique, the output is
exactly the registration order. The original claim's stronger tie-break
(registration order preserved between any two Definitions with no mutual
dependency) is refuted by `resolver_tieBreak_counterexample`. -/
theorem resolver_topological_order (reg : List Definition) (order : List String)
    (h : resolve reg = .ok order) :
    topoSorted reg order ∧ order.Nodup ∧
    (((reg.map (fun d => d.identifier)).Nodup ∧ ∀ d ∈ reg, depsOf d = []) →
      order = reg.map (fun d => d.identifier)) := by
  obtain ⟨⟨hnd, htopo, -⟩, -⟩ := resolve_ok h
  refine ⟨htopo, hnd, ?_⟩
  rintro ⟨hnodup, hall⟩
  have hres := resolveAll_no_deps reg hall reg [] (fun x hx => hx)
    (by intro d hd hmem; cases hmem) hnodup
  unfold resolve at h
  rw [hres] at h
  injection h with h'
  rw [← h']
  simp

/-- C1 counterexample: on the registry A, B, C where A references C and B
and C have no mutual dependency whatsoever, the resolver outputs C, A, B —
C precedes B even though B was registered before C, so the claimed
tie-break by registration order among mutually independent Definitions does
not hold of the resolver's output. -/
theorem resolver_tieBreak_counterexample :
    resolve cexReg = .ok ["C", "A", "B"] ∧
    ¬ RegOrderTieBreak cexReg ["C", "A", "B"] := by
  constructor
  · rfl
  · decide

/-- Witness for the amended C1 theorem on a concrete two-element registry. -/
theorem resolver_topological_order_witness :
    resolve w1Reg = .ok ["B", "A"] ∧
    (topoSorted w1Reg ["B", "A"] ∧ (["B", "A"] : List String).Nodup ∧
      (((w1Reg.map (fun d => d.identifier)).Nodup ∧ ∀ d ∈ w1Reg, depsOf d = []) →
        ["B", "A"] = w1Reg.map (fun d => d.identifier))) :=
  ⟨rfl, resolver_topological_order w1Reg ["B", "A"] rfl⟩

/-- C2: whenever every definition-reference resolves and the dependency
graph has a cycle, readiness fails with CircularDependency (carrying a cycle
path); in particular on the concrete two-cycle A to B to A the reported path
names both identifiers. -/
theorem resolver_cycle_detection (reg : List Definition)
    (hres : AllRefsResolve reg) (hcyc : HasCycle reg) :
    (∃ p, ready reg = .error (.circularDependency p)) ∧
    ("A" ∈ abCyclePath ∧ "B" ∈ abCyclePath) := by
  refine ⟨?_, by decide, by decide⟩
  cases h : resolve reg with
  | ok order => exact absurd hcyc (resolve_ok_no_cycle h)
  | error e =>
    rcases resolve_err h with ⟨-, p, rfl⟩ | ⟨x, -, hnreg, a, d, hfind, hdep⟩
    · refine ⟨p, ?_⟩
      unfold ready
      rw [h]
    · exact absurd (hres d (findDef_identifier hfind).2 x hdep) hnreg

/-- Witness for C2 on the concrete two-cycle registry. -/
theorem resolver_cycle_detection_witness :
    AllRefsResolve abReg ∧ HasCycle abReg ∧
    ((∃ p, ready abReg = .error (.circularDependency p)) ∧
      ("A" ∈ abCyclePath ∧ "B" ∈ abCyclePath)) := by
  have hAB : Edge abReg "A" "B" := ⟨abA, by decide, by decide⟩
  have hBA : Edge abReg "B" "A" := ⟨abB, by decide, by decide⟩
  have hcyc : HasCycle abReg :=
    ⟨"A", Relation.TransGen.tail (Relation.TransGen.single hAB) hBA⟩
  exact ⟨by decide, hcyc, resolver_cycle_detection abReg (by decide) hcyc⟩

end Ioc

namespace Ioc

/-- C3: under a successful readiness, for any two registered Definitions
where D1 references D2 and both declare asynchronous initialization hooks,
D2's initialization completion event occurs strictly before D1's
initialization start event in the factory trace — D1's async init never
starts before its dependency has finished initializing. -/
theorem asyncInit_dependency_order (reg : List Definition) (st : FactoryState)
    (d1 d2 : Definition)
    (hnodup : (reg.map (fun d => d.identifier)).Nodup)
    (hready : ready reg = .ok st)
    (hd1 : d1 ∈ reg) (hd2 : d2 ∈ reg)
    (hdep : d2.identifier ∈ depsOf d1)
    (ha1 : d1.isAsyncInit = true) (ha2 : d2.isAsyncInit = true) :
    ∃ t₁ t₂, st.trace = t₁ ++ Event.initEnd d2.identifier :: t₂ ∧
      Event.initStart d1.identifier ∈ t₂ := by
  unfold ready at hready
  cases hres : resolve reg with
  | error e => simp [hres] at hready
  | ok order =>
    simp only [hres] at hready
    obtain ⟨hdi, hall⟩ := resolve_ok hres
    have hfind1 : findDef reg d1.identifier = some d1 := findDef_self_of_nodup hnodup hd1
    have hfind2 : findDef reg d2.identifier = some d2 := findDef_self_of_nodup hnodup hd2
    have h1in : d1.identifier ∈ order := hall d1 hd1
    obtain ⟨l₁, l₂, hsplit, hbmem⟩ :=
      hdi.2.1 d1.identifier d1 h1in hfind1 d2.identifier hdep
    obtain ⟨m₁, m₂, hsplit2⟩ := List.append_of_mem hbmem
    have htrace : st.trace = blocksOf reg order := by
      have := (runFactory_ok_shape hready).2
      simpa using this
    rw [hsplit, hsplit2] at htrace
    have hb2 : blockOf reg d2.identifier =
        [.constructed d2.identifier, .initStart d2.identifier, .initEnd d2.identifier] := by
      unfold blockOf
      rw [hfind2]
      simp [ha2]
    have hb1mem : Event.initStart d1.identifier ∈ blockOf reg d1.identifier := by
      unfold blockOf
      rw [hfind1]
      simp [ha1]
    refine ⟨blocksOf reg m₁ ++ [.constructed d2.identifier, .initStart d2.identifier],
      blocksOf reg m₂ ++ (blockOf reg d1.identifier ++ blocksOf reg l₂), ?_, ?_⟩
    · rw [htrace, blocksOf_append, blocksOf_append]
      show blocksOf reg m₁ ++ (blockOf reg d2.identifier ++ blocksOf reg m₂) ++
        (blockOf reg d1.identifier ++ blocksOf reg l₂) = _
      rw [hb2]
      simp [List.append_assoc]
    · exact List.mem_append_right _ (List.mem_append_left _ hb1mem)

/-- Witness for C3 on the concrete two-element async registry. -/
theorem asyncInit_dependency_order_witness :
    ((w3Reg.map (fun d => d.identifier)).Nodup ∧ ready w3Reg = .ok w3St ∧
      w3A ∈ w3Reg ∧ w3B ∈ w3Reg ∧ w3B.identifier ∈ depsOf w3A ∧
      w3A.isAsyncInit = true ∧ w3B.isAsyncInit = true) ∧
    (∃ t₁ t₂, w3St.trace = t₁ ++ Event.initEnd w3B.identifier :: t₂ ∧
      Event.initStart w3A.identifier ∈ t₂) :=
  ⟨⟨by decide, by decide, by decide, by decide, by decide, by decide, by decide⟩,
   asyncInit_dependency_order w3Reg w3St w3A w3B (by decide) (by decide) (by decide)
     (by decide) (by decide) (by decide) (by decide)⟩

/-- C4: when resolution succeeds but some registered Definition's
construction or declared asynchronous initialization fails, readiness
rejects with InitializationFailed carrying the identifier of a genuinely
failing Definition together with its cause, and every subsequent lookup
fails with NotReadyYet. -/
theorem initialization_failure_aborts (reg : List Definition) (order : List String)
    (d : Definition)
    (hnodup : (reg.map (fun e => e.identifier)).Nodup)
    (hres : resolve reg = .ok order)
    (hd : d ∈ reg)
    (hfail : d.constructFails.isSome = true ∨
      d.isAsyncInit = true ∧ d.initFails.isSome = true) :
    (∃ c cause, ready reg = .error (.initializationFailed c cause) ∧
      ∃ d', findDef reg c = some d' ∧
        (d'.constructFails = some cause ∨
          d'.isAsyncInit = true ∧ d'.initFails = some cause)) ∧
    (∀ id, containerGet (ready reg) id = .error .notReadyYet) := by
  obtain ⟨hdi, hall⟩ := resolve_ok hres
  have hfind : findDef reg d.identifier = some d := findDef_self_of_nodup hnodup hd
  obtain ⟨c, cause, hrun, hd'⟩ := runFactory_err_of order ⟨[], []⟩
    (fun x hx => hdi.2.2 x hx) ⟨d.identifier, hall d hd, d, hfind, hfail⟩
  have hready : ready reg = .error (.initializationFailed c cause) := by
    unfold ready
    simp only [hres]
    exact hrun
  refine ⟨⟨c, cause, hready, hd'⟩, ?_⟩
  intro id
  unfold containerGet
  rw [hready]

/-- Witness for C4 on the concrete failing-init registry. -/
theorem initialization_failure_aborts_witness :
    ((w4Reg.map (fun e => e.identifier)).Nodup ∧ resolve w4Reg = .ok ["C"] ∧
      w4C ∈ w4Reg ∧ (w4C.constructFails.isSome = true ∨
        w4C.isAsyncInit = true ∧ w4C.initFails.isSome = true)) ∧
    ((∃ c cause, ready w4Reg = .error (.initializationFailed c cause) ∧
      ∃ d', findDef w4Reg c = some d' ∧
        (d'.constructFails = some cause ∨
          d'.isAsyncInit = true ∧ d'.initFails = some cause)) ∧
    (∀ id, containerGet (ready w4Reg) id = .error .notReadyYet)) :=
  ⟨⟨by decide, by decide, by decide, by decide⟩,
   initialization_failure_aborts w4Reg ["C"] w4C (by decide) (by decide) (by decide)
     (by decide)⟩

/-- C5: for a registry whose definition-references all resolve, whose
dependency graph is acyclic and whose Definitions neither fail construction
nor initialization, readiness succeeds and afterwards every registered
Definition's identifier is retrievable through the Container lookup. -/
theorem ready_resolves_and_gets (reg : List Definition)
    (hres : AllRefsResolve reg)
    (hacyc : ¬ HasCycle reg)
    (hok : ∀ d ∈ reg, d.constructFails = none ∧ (d.isAsyncInit = true → d.initFails = none)) :
    ∃ st, ready reg = .ok st ∧
      ∀ d ∈ reg, ∃ inst, containerGet (ready reg) d.identifier = .ok inst := by
  cases h : resolve reg with
  | error e =>
    exfalso
    rcases resolve_err h with ⟨hc, -⟩ | ⟨x, -, hnreg, a, d, hfind, hdep⟩
    · exact hacyc hc
    · exact hnreg (hres d (findDef_identifier hfind).2 x hdep)
  | ok order =>
    obtain ⟨hdi, hall⟩ := resolve_ok h
    obtain ⟨st, hrun⟩ := runFactory_ok_of order ⟨[], []⟩ (by
      intro id hid
      obtain ⟨d, hfind⟩ := Option.isSome_iff_exists.mp (hdi.2.2 id hid)
      obtain ⟨hcf, hif⟩ := hok d (findDef_identifier hfind).2
      exact ⟨d, hfind, hcf, hif⟩)
    have hready : ready reg = .ok st := by
      unfold ready
      simp only [h]
      exact hrun
    refine ⟨st, hready, ?_⟩
    intro d hd
    have hkeys : st.instances = order.map (fun id => (id, Instance.mk id)) := by
      have := (runFactory_ok_shape hrun).1
      simpa using this
    refine ⟨⟨d.identifier⟩, ?_⟩
    unfold containerGet
    simp only [hready, hkeys, lookup_map_self order d.identifier (hall d hd)]

/-- Witness for C5 on a concrete one-element registry. -/
theorem ready_resolves_and_gets_witness :
    (AllRefsResolve w5Reg ∧ ¬ HasCycle w5Reg ∧
      (∀ d ∈ w5Reg, d.constructFails = none ∧ (d.isAsyncInit = true → d.initFails = none))) ∧
    (∃ st, ready w5Reg = .ok st ∧
      ∀ d ∈ w5Reg, ∃ inst, containerGet (ready w5Reg) d.identifier = .ok inst) :=
  ⟨⟨by decide, no_cycle_of_no_deps (by decide), by decide⟩,
   ready_resolves_and_gets w5Reg (by decide) (no_cycle_of_no_deps (by decide)) (by decide)⟩

/-- C6: registering a Definition whose identifier is already present fails
with DuplicateIdentifier, and the registry value after the failed call is
the unchanged registry, so the first registration is retained. -/
theorem register_duplicate (reg : List Definition) (d : Definition)
    (h : ∃ e ∈ reg, e.identifier = d.identifier) :
    register reg d = .error (.duplicateIdentifier d.identifier) ∧
    registerOrKeep reg d = reg := by
  have hany : reg.any (fun e => e.identifier = d.identifier) = true := by
    obtain ⟨e, he, heq⟩ := h
    exact List.any_eq_true.mpr ⟨e, he, by simp [heq]⟩
  have hreg : register reg d = .error (.duplicateIdentifier d.identifier) := by
    unfold register
    rw [if_pos hany]
  refine ⟨hreg, ?_⟩
  unfold registerOrKeep
  rw [hreg]

/-- Witness for C6 on a concrete duplicate registration. -/
theorem register_duplicate_witness :
    (∃ e ∈ w6Reg, e.identifier = w6A'.identifier) ∧
    (register w6Reg w6A' = .error (.duplicateIdentifier w6A'.identifier) ∧
      registerOrKeep w6Reg w6A' = w6Reg) :=
  ⟨by decide, register_duplicate w6Reg w6A' (by decide)⟩

/-- C7: under a successful readiness every registered Definition is
constructed exactly once — its construction event occurs exactly once in
the factory trace (for a function-kind Definition this is the single
invocation of its function) — and the live instance map holds exactly one
entry for its identifier, which lookups return without reconstructing. -/
theorem singleton_constructed_once (reg : List Definition) (st : FactoryState) (d : Definition)
    (hready : ready reg = .ok st) (hd : d ∈ reg) :
    List.count (Event.constructed d.identifier) st.trace = 1 ∧
    List.count d.identifier (st.instances.map Prod.fst) = 1 := by
  unfold ready at hready
  cases hres : resolve reg with
  | error e => simp [hres] at hready
  | ok order =>
    simp only [hres] at hready
    obtain ⟨hdi, hall⟩ := resolve_ok hres
    have hmem : d.identifier ∈ order := hall d hd
    have ht' : st.trace = blocksOf reg order := by
      have := (runFactory_ok_shape hready).2
      simpa using this
    have hi' : st.instances = order.map (fun id => (id, Instance.mk id)) := by
      have := (runFactory_ok_shape hready).1
      simpa using this
    constructor
    · rw [ht', count_constructed_blocksOf reg order (fun x hx => hdi.2.2 x hx) d.identifier]
      exact List.count_eq_one_of_mem hdi.1 hmem
    · have hkeys : st.instances.map Prod.fst = order := by
        rw [hi']
        exact map_fst_pairs order
      rw [hkeys]
      exact List.count_eq_one_of_mem hdi.1 hmem

/-- Witness for C7 on a concrete one-element function-kind registry. -/
theorem singleton_constructed_once_witness :
    (ready w7Reg = .ok w7St ∧ w7F ∈ w7Reg) ∧
    (List.count (Event.constructed w7F.identifier) w7St.trace = 1 ∧
      List.count w7F.identifier (w7St.instances.map Prod.fst) = 1) :=
  ⟨⟨by decide, by decide⟩,
   singleton_constructed_once w7Reg w7St w7F (by decide) (by decide)⟩

end Ioc
